import Mathlib

/-!
Verification of the highlight-clip extraction pipeline in `extract.py`.
Python floats are modelled as rationals; all values appearing in the
claims are exactly representable, and the arithmetic the script performs
on them (addition, subtraction, halving, max) is exact on those values.
-/

/-- A (start, end) time range in seconds, as produced by the keyword scan. -/
abbrev Moment := ℚ × ℚ

/-- The sort key used by the merger: Python sorts by `x[0]`, the start time. -/
def startLE (a b : Moment) : Prop := a.1 ≤ b.1

instance : DecidableRel startLE := fun a b => inferInstanceAs (Decidable (a.1 ≤ b.1))

instance : IsTotal Moment startLE := ⟨fun a b => le_total a.1 b.1⟩

instance : IsTrans Moment startLE := ⟨fun _ _ _ h h2 => le_trans h h2⟩

/-- One step of the merge loop body, acting on the result list kept in
reversed order so that the most recent entry (Python `merged[-1]`) is the
head: if the current start is within `threshold` of the last end, extend
the last end to the max of the two ends; otherwise push a new entry. -/
def mergeStep (threshold : ℚ) (merged : List Moment) (cur : Moment) : List Moment :=
  match merged with
  | (last_start, last_end) :: tail =>
      if cur.1 ≤ last_end + threshold then (last_start, max last_end cur.2) :: tail
      else cur :: (last_start, last_end) :: tail
  | [] => [cur]

/-- `merge_overlapping_moments` from `extract.py`: empty input gives empty
output; otherwise sort by start time, seed the result with the first sorted
moment, and fold the loop body over the remaining moments. The accumulator
is kept reversed (head = last entry) and reversed back at the end. -/
def merge_overlapping_moments (moments : List Moment) (threshold : ℚ) : List Moment :=
  match List.insertionSort startLE moments with
  | [] => []
  | first :: rest => (rest.foldl (mergeStep threshold) [first]).reverse

/-- The same left-to-right sweep written as a structural recursion carrying
the current last entry, following the wording of the specification: absorb a
moment whose start is within threshold of the last end (extending the end to
the max, keeping the start), otherwise emit the last entry and start a new one. -/
def mergeSweep (threshold : ℚ) : Moment → List Moment → List Moment
  | last, [] => [last]
  | (ls, le), (cs, ce) :: rest =>
      if cs ≤ le + threshold then mergeSweep threshold (ls, max le ce) rest
      else (ls, le) :: mergeSweep threshold (cs, ce) rest

/-- The merge algorithm as the specification words it: sort ascending by
start, start the result with the first sorted moment, sweep left to right. -/
def mergeMomentsSpec (moments : List Moment) (threshold : ℚ) : List Moment :=
  match List.insertionSort startLE moments with
  | [] => []
  | first :: rest => mergeSweep threshold first rest

lemma foldl_mergeStep_eq_sweep (threshold : ℚ) :
    ∀ (rest : List Moment) (last : Moment) (tail : List Moment),
      (rest.foldl (mergeStep threshold) (last :: tail)).reverse
        = tail.reverse ++ mergeSweep threshold last rest := by
  intro rest
  induction rest with
  | nil => intro last tail; simp [mergeSweep]
  | cons cur rest ih =>
      intro last tail
      obtain ⟨ls, le⟩ := last
      obtain ⟨cs, ce⟩ := cur
      by_cases h : cs ≤ le + threshold
      · rw [List.foldl_cons]
        have hstep : mergeStep threshold ((ls, le) :: tail) (cs, ce)
            = (ls, max le ce) :: tail := by
          simp [mergeStep, h]
        rw [hstep, ih]
        simp [mergeSweep, h]
      · rw [List.foldl_cons]
        have hstep : mergeStep threshold ((ls, le) :: tail) (cs, ce)
            = (cs, ce) :: (ls, le) :: tail := by
          simp [mergeStep, h]
        rw [hstep, ih]
        simp [mergeSweep, h]

lemma merge_eq_spec (moments : List Moment) (threshold : ℚ) :
    merge_overlapping_moments moments threshold = mergeMomentsSpec moments threshold := by
  unfold merge_overlapping_moments mergeMomentsSpec
  cases h : List.insertionSort startLE moments with
  | nil => rfl
  | cons first rest => simpa using foldl_mergeStep_eq_sweep threshold rest first []

/-- Claim C1, counterexample: on input [(5,6), (1,2)] with threshold 10 the
merger does NOT return [(1,2), (5,6)]: after sorting, 5 ≤ 2 + 10, so the two
moments merge and the result is [(1,6)]. -/
theorem merger_example_two_refuted :
    merge_overlapping_moments [(5, 6), (1, 2)] 10 = [(1, 6)]
    ∧ merge_overlapping_moments [(5, 6), (1, 2)] 10 ≠ [(1, 2), (5, 6)] := by
  constructor <;>
    norm_num [merge_overlapping_moments, List.insertionSort, List.orderedInsert, startLE,
      mergeStep, max_def]

/-- Claim C1, amended: the merger follows the spec algorithm (empty input
yields empty output; otherwise sort by start ascending, seed with the first
sorted moment, absorb a subsequent moment when its start is at most last end
plus threshold by taking the max end, else append); on the first concrete
example it returns [(0,5), (20,22)], and on the out-of-order input
[(5,6), (1,2)] with threshold 10 it returns [(1,6)], because after sorting
the second start 5 lies within threshold of the first end 2. -/
theorem merger_follows_spec_algorithm :
    (∀ threshold : ℚ, merge_overlapping_moments [] threshold = [])
    ∧ (∀ (moments : List Moment) (threshold : ℚ),
        merge_overlapping_moments moments threshold = mergeMomentsSpec moments threshold)
    ∧ merge_overlapping_moments [(0, 2), (3, 5), (20, 22)] 10 = [(0, 5), (20, 22)]
    ∧ merge_overlapping_moments [(5, 6), (1, 2)] 10 = [(1, 6)] := by
  refine ⟨fun threshold => rfl, merge_eq_spec, ?_, ?_⟩ <;>
    norm_num [merge_overlapping_moments, List.insertionSort, List.orderedInsert, startLE,
      mergeStep, max_def]

/-! Clip export computations, from `export_clip` in `extract.py`. The
configured defaults appear below; the computations are parametrised over the
configuration values so the universally quantified claims can be stated. -/

/-- Config default: seconds to include before the keyword is spoken. -/
def buffer_before : ℚ := 1.5

/-- Config default: seconds to include after the keyword is spoken. -/
def buffer_after : ℚ := 3.0

/-- Config default: minimum total duration for any clip, in seconds. -/
def min_duration : ℚ := 60

/-- Config default: max seconds between moments to merge them into one clip. -/
def merge_threshold : ℚ := 10

/-- Midpoint of the detected moment, `moment_center` in the source. -/
def moment_center (start stop : ℚ) : ℚ := (start + stop) / 2

/-- Exported clip duration: raw span plus both buffers, floored at the
configured minimum. -/
def clip_duration (start stop bb ba minDur : ℚ) : ℚ :=
  max ((stop - start) + bb + ba) minDur

/-- Exported clip start offset: moment center minus half the clip duration,
clamped at zero. -/
def clip_start (start stop bb ba minDur : ℚ) : ℚ :=
  max 0 (moment_center start stop - clip_duration start stop bb ba minDur / 2)

/-- Claim C2: for every moment the exporter computes duration
max((end - start) + buffer_before + buffer_after, min_duration) and start
offset max(0, center - duration/2); with the default configuration, moment
(10,12) gives duration 60 and start 0, and moment (100,170) gives duration
74.5 and start 97.75. -/
theorem export_clip_timing_formulas :
    (∀ start stop bb ba minDur : ℚ,
      clip_duration start stop bb ba minDur = max ((stop - start) + bb + ba) minDur
      ∧ clip_start start stop bb ba minDur
          = max 0 ((start + stop) / 2 - clip_duration start stop bb ba minDur / 2))
    ∧ clip_duration 10 12 buffer_before buffer_after min_duration = 60
    ∧ clip_start 10 12 buffer_before buffer_after min_duration = 0
    ∧ clip_duration 100 170 buffer_before buffer_after min_duration = 74.5
    ∧ clip_start 100 170 buffer_before buffer_after min_duration = 97.75 := by
  refine ⟨fun s e bb ba m => ⟨rfl, rfl⟩, ?_, ?_, ?_, ?_⟩ <;>
    norm_num [clip_duration, clip_start, moment_center, buffer_before, buffer_after,
      min_duration, max_def]

/-- Claim C6: for every moment and configuration, the computed clip start
offset is nonnegative and the computed clip duration is at least the
configured minimum. -/
theorem export_clip_clamps :
    ∀ start stop bb ba minDur : ℚ,
      0 ≤ clip_start start stop bb ba minDur
      ∧ minDur ≤ clip_duration start stop bb ba minDur :=
  fun _ _ _ _ _ => ⟨le_max_left _ _, le_max_right _ _⟩

/-- Claim C10: for a moment with 0 ≤ start ≤ end and nonnegative buffers and
minimum duration, the exported window [clip_start, clip_start + clip_duration]
contains [start, end]. -/
theorem export_window_contains_moment
    (start stop bb ba minDur : ℚ) (hs : 0 ≤ start) (hse : start ≤ stop)
    (hbb : 0 ≤ bb) (hba : 0 ≤ ba) (hmin : 0 ≤ minDur) :
    clip_start start stop bb ba minDur ≤ start
    ∧ stop ≤ clip_start start stop bb ba minDur + clip_duration start stop bb ba minDur := by
  have hd : (stop - start) + bb + ba ≤ clip_duration start stop bb ba minDur :=
    le_max_left _ _
  constructor
  · apply max_le hs
    unfold moment_center
    linarith
  · have h2 : moment_center start stop - clip_duration start stop bb ba minDur / 2
        ≤ clip_start start stop bb ba minDur := le_max_right _ _
    unfold moment_center at h2
    linarith

/-- Witness for claim C10 at the moment (10,12) with the default
configuration values. -/
theorem export_window_contains_moment_witness :
    clip_start 10 12 1.5 3 60 ≤ 10 ∧ (12 : ℚ) ≤ clip_start 10 12 1.5 3 60 + clip_duration 10 12 1.5 3 60 :=
  export_window_contains_moment 10 12 1.5 3 60 (by norm_num) (by norm_num)
    (by norm_num) (by norm_num) (by norm_num)

/-! Keyword scan, from the transcript loop in `extract.py`:
`if any(kw in text.lower() for kw in keywords): highlight_times.append((start, end))`. -/

/-- The configured keyword list. Matching is case-insensitive because the
segment text is lowercased before the substring test. -/
def keywords : List String :=
  ["lol", "laugh", "anjing", "anying", "goblog", "kontol",
   "memek", "hahaha", "screamed", "goblok", "aduh", "ardi",
   "beni", "gendut", "botak"]

/-- Whether the first list is a leading run of the second. -/
def leadsList : List Char → List Char → Bool
  | [], _ => true
  | _ :: _, [] => false
  | a :: as, b :: bs => a == b && leadsList as bs

/-- Python substring containment `needle in haystack`: the needle occurs as
a contiguous run at some position of the haystack. -/
def containsSubstring (needle : List Char) : List Char → Bool
  | [] => needle.isEmpty
  | c :: rest => leadsList needle (c :: rest) || containsSubstring needle rest

/-- Python `text.lower()`, character-wise lowering. -/
def lowerStr (text : List Char) : List Char := text.map Char.toLower

/-- The keyword test applied to one segment text:
`any(kw in text.lower() for kw in keywords)`. -/
def segmentMatches (kws : List String) (text : List Char) : Bool :=
  kws.any fun kw => containsSubstring kw.toList (lowerStr text)

/-- One utterance unit of the transcript: start time, end time, text.
The field `stop` models the `end` attribute, a reserved word in Lean. -/
structure TranscriptSegment where
  start : ℚ
  stop : ℚ
  text : List Char

/-- The scan loop: walk the segments in order, appending (start, end) for
each segment whose lowered text contains some keyword. -/
def highlight_times (kws : List String) : List TranscriptSegment → List (ℚ × ℚ)
  | [] => []
  | s :: rest =>
      if segmentMatches kws s.text then (s.start, s.stop) :: highlight_times kws rest
      else highlight_times kws rest

/-- The example text of claim C3, containing an apostrophe (character 39). -/
def lolText : List Char := "He LOL".toList ++ [Char.ofNat 39] ++ "d loudly".toList

lemma highlight_times_eq_filter (kws : List String) (segs : List TranscriptSegment) :
    highlight_times kws segs
      = (segs.filter fun s => segmentMatches kws s.text).map fun s => (s.start, s.stop) := by
  induction segs with
  | nil => rfl
  | cons s rest ih =>
      by_cases h : segmentMatches kws s.text
      · simp [highlight_times, List.filter, h, ih]
      · simp [highlight_times, List.filter, h, ih]

/-- Claim C3: a highlight moment (start, end) is recorded exactly for the
segments whose lowered text contains a configured keyword as a contiguous
substring, in segment order; the example text containing LOL with an
apostrophe matches keyword lol, and text aduhai matches keyword aduh. -/
theorem scanner_is_ordered_substring_filter :
    (∀ (kws : List String) (segs : List TranscriptSegment),
      highlight_times kws segs
        = (segs.filter fun s => segmentMatches kws s.text).map fun s => (s.start, s.stop))
    ∧ segmentMatches keywords lolText = true
    ∧ segmentMatches keywords ("aduhai".toList) = true := by
  refine ⟨highlight_times_eq_filter, ?_, ?_⟩ <;> decide

/-! Transcript writing, from the loop
`f.write(f"[{start:.2f}s -> {end:.2f}s] {text}\n")`, and clip naming from
`clip_name = f"clip_{i+1}.mkv"`. Decimal rendering of numbers is defined
from first principles so concrete instances evaluate inside the kernel. -/

/-- The decimal digit character for d (0 to 9). -/
def digitChar (d : ℕ) : Char := Char.ofNat (48 + d)

/-- Decimal digits of a natural number, most significant first, with enough
fuel to terminate structurally. -/
def digitsAux : ℕ → ℕ → List Char → List Char
  | 0, _, acc => acc
  | fuel + 1, n, acc =>
      if n < 10 then digitChar n :: acc
      else digitsAux fuel (n / 10) (digitChar (n % 10) :: acc)

/-- Decimal rendering of a natural number. -/
def natToChars (n : ℕ) : List Char := digitsAux (n + 1) n []

/-- Renders a count of centiseconds as a fixed-point number with two
digits after the dot: optional minus sign, integer part, dot, two digits. -/
def fmt2Int (c : ℤ) : List Char :=
  (if c < 0 then [Char.ofNat 45] else [])
    ++ natToChars (c.natAbs / 100) ++ [Char.ofNat 46]
    ++ (if c.natAbs % 100 < 10 then [digitChar 0] else []) ++ natToChars (c.natAbs % 100)

/-- Two-decimal fixed-point rendering of a rational, modelling the .2f
format: the value is scaled to centiseconds rounded to nearest (half
rounded upward), then printed as integer part, a dot, and two digits. -/
def fmt2 (q : ℚ) : List Char :=
  fmt2Int (Int.fdiv (200 * q.num + q.den) (2 * (q.den : ℤ)))

/-- The transcript line written for one segment (without the trailing
newline): bracket, start time, arrow, end time, bracket, then the text. -/
def lineFor (s : TranscriptSegment) : List Char :=
  "[".toList ++ fmt2 s.start ++ "s -> ".toList ++ fmt2 s.stop ++ "s] ".toList ++ s.text

/-- The whole transcript file content: one line plus newline per segment,
in segment order. -/
def transcriptFile : List TranscriptSegment → List Char
  | [] => []
  | s :: rest => lineFor s ++ Char.ofNat 10 :: transcriptFile rest

/-- Split a character stream at newline characters, the accumulator holding
the current line reversed; a nonempty trailing fragment counts as a line. -/
def splitLinesAux : List Char → List Char → List (List Char)
  | cur, [] => if cur.isEmpty then [] else [cur.reverse]
  | cur, c :: rest =>
      if c = Char.ofNat 10 then cur.reverse :: splitLinesAux [] rest
      else splitLinesAux (c :: cur) rest

/-- The lines of a character stream. -/
def splitOnNL (cs : List Char) : List (List Char) := splitLinesAux [] cs

lemma splitLinesAux_append (l : List Char) :
    ∀ (cur rest : List Char), Char.ofNat 10 ∉ l →
      splitLinesAux cur (l ++ Char.ofNat 10 :: rest)
        = (cur.reverse ++ l) :: splitLinesAux [] rest := by
  induction l with
  | nil => intro cur rest _; simp [splitLinesAux]
  | cons c l ih =>
      intro cur rest hnl
      have hc : c ≠ Char.ofNat 10 := fun h => hnl (h ▸ List.mem_cons_self c l)
      have hl : Char.ofNat 10 ∉ l := fun h => hnl (List.mem_cons_of_mem c h)
      simp only [List.cons_append, splitLinesAux, if_neg hc, List.append_eq]
      rw [ih (c :: cur) rest hl]
      simp

lemma digitChar_ne_nl {d : ℕ} (h : d < 10) : digitChar d ≠ Char.ofNat 10 := by
  interval_cases d <;> decide

lemma digitsAux_ne_nl :
    ∀ (fuel n : ℕ) (acc : List Char), (∀ c ∈ acc, c ≠ Char.ofNat 10) →
      ∀ c ∈ digitsAux fuel n acc, c ≠ Char.ofNat 10 := by
  intro fuel
  induction fuel with
  | zero => intro n acc hacc; exact hacc
  | succ fuel ih =>
      intro n acc hacc c hc
      by_cases h : n < 10
      · simp only [digitsAux, if_pos h] at hc
        rcases List.mem_cons.1 hc with h1 | h1
        · exact h1 ▸ digitChar_ne_nl h
        · exact hacc c h1
      · simp only [digitsAux, if_neg h] at hc
        refine ih (n / 10) _ ?_ c hc
        intro c2 hc2
        rcases List.mem_cons.1 hc2 with h2 | h2
        · exact h2 ▸ digitChar_ne_nl (Nat.mod_lt n (by norm_num))
        · exact hacc c2 h2

lemma natToChars_ne_nl (n : ℕ) : ∀ c ∈ natToChars n, c ≠ Char.ofNat 10 :=
  digitsAux_ne_nl (n + 1) n [] (by intro c hc; cases hc)

lemma fmt2Int_no_nl (c : ℤ) : Char.ofNat 10 ∉ fmt2Int c := by
  have h45 : Char.ofNat 10 ∉ (if c < 0 then [Char.ofNat 45] else ([] : List Char)) := by
    split <;> decide
  have h0 : Char.ofNat 10
      ∉ (if c.natAbs % 100 < 10 then [digitChar 0] else ([] : List Char)) := by
    split <;> decide
  intro hmem
  simp only [fmt2Int] at hmem
  rcases List.mem_append.1 hmem with h | h
  · rcases List.mem_append.1 h with h | h
    · rcases List.mem_append.1 h with h | h
      · rcases List.mem_append.1 h with h | h
        · exact h45 h
        · exact natToChars_ne_nl _ _ h rfl
      · exact absurd h (by decide)
    · exact h0 h
  · exact natToChars_ne_nl _ _ h rfl

lemma fmt2_no_nl (q : ℚ) : Char.ofNat 10 ∉ fmt2 q := fmt2Int_no_nl _

lemma lineFor_no_nl (s : TranscriptSegment) (h : Char.ofNat 10 ∉ s.text) :
    Char.ofNat 10 ∉ lineFor s := by
  intro hmem
  simp only [lineFor] at hmem
  rcases List.mem_append.1 hmem with h1 | h1
  · rcases List.mem_append.1 h1 with h1 | h1
    · rcases List.mem_append.1 h1 with h1 | h1
      · rcases List.mem_append.1 h1 with h1 | h1
        · rcases List.mem_append.1 h1 with h1 | h1
          · exact absurd h1 (by decide)
          · exact fmt2_no_nl _ h1
        · exact absurd h1 (by decide)
      · exact fmt2_no_nl _ h1
    · exact absurd h1 (by decide)
  · exact h h1

/-- Claim C7: under the assumption that no segment text contains a newline,
the transcript file splits into exactly one line per segment, in segment
order, each line being the bracketed two-decimal start and end followed by
the segment text. -/
theorem transcript_one_line_per_segment
    (segs : List TranscriptSegment) (h : ∀ s ∈ segs, Char.ofNat 10 ∉ s.text) :
    splitOnNL (transcriptFile segs) = segs.map lineFor
    ∧ (splitOnNL (transcriptFile segs)).length = segs.length := by
  have main : splitOnNL (transcriptFile segs) = segs.map lineFor := by
    induction segs with
    | nil => rfl
    | cons s rest ih =>
        have hs := h s (List.mem_cons_self s rest)
        have hrest : ∀ s2 ∈ rest, Char.ofNat 10 ∉ s2.text :=
          fun s2 hs2 => h s2 (List.mem_cons_of_mem s hs2)
        simp only [transcriptFile, splitOnNL, List.map_cons]
        rw [splitLinesAux_append (lineFor s) [] (transcriptFile rest) (lineFor_no_nl s hs)]
        simp only [List.reverse_nil, List.nil_append, List.cons.injEq, true_and]
        exact ih hrest
  exact ⟨main, by rw [main]; exact List.length_map _ _⟩

/-- Witness for claim C7 on a concrete two-segment transcript. -/
theorem transcript_one_line_per_segment_witness :
    splitOnNL (transcriptFile [⟨0, 2, "hi".toList⟩, ⟨3, 4, "lol there".toList⟩])
        = [⟨0, 2, "hi".toList⟩, ⟨3, 4, "lol there".toList⟩].map lineFor
    ∧ (splitOnNL (transcriptFile [⟨0, 2, "hi".toList⟩, ⟨3, 4, "lol there".toList⟩])).length
        = ([⟨0, 2, "hi".toList⟩, ⟨3, 4, "lol there".toList⟩] : List TranscriptSegment).length :=
  transcript_one_line_per_segment _ (by decide)

/-! Clip naming and submission order, from `clip_name = f"clip_{i+1}.mkv"`
and the `for i, (start, end) in enumerate(merged_times): executor.submit(...)`
loop. Each submitted unit of work carries the 0-based list position `i`, and
the output name is a pure function of `i` alone, fixed at submission time. -/

/-- Decimal string for a natural number. -/
def natStr (n : ℕ) : String := ⟨natToChars n⟩

/-- The output file name for the clip submitted at 0-based position i:
it embeds the 1-based numeral i+1. -/
def clip_name (i : ℕ) : String := "clip_" ++ natStr (i + 1) ++ ".mkv"

/-- The (name, moment) pairs handed to the worker pool, in list order. -/
def exportSubmissions (moments : List Moment) : List (String × Moment) :=
  moments.enum.map fun p => (clip_name p.1, p.2)

/-- Claim C8: one submission per moment, and the submission at 0-based
position i carries the file name embedding the 1-based numeral i+1, a
function of the list position only (hence independent of completion order). -/
theorem export_numbering_from_position (moments : List Moment) (i : ℕ) (m : Moment)
    (h : moments[i]? = some m) :
    (exportSubmissions moments).length = moments.length
    ∧ (exportSubmissions moments)[i]? = some (clip_name i, m)
    ∧ clip_name i = "clip_" ++ natStr (i + 1) ++ ".mkv" := by
  refine ⟨?_, ?_, rfl⟩
  · simp [exportSubmissions]
  · simp [exportSubmissions, List.getElem?_map, List.getElem?_enum, h]

/-- Witness for claim C8 at position 1 of a two-moment list; the second
submitted clip is named clip_2.mkv. -/
theorem export_numbering_from_position_witness :
    (exportSubmissions [((0 : ℚ), (2 : ℚ)), (20, 22)]).length
        = ([((0 : ℚ), (2 : ℚ)), (20, 22)] : List Moment).length
    ∧ (exportSubmissions [((0 : ℚ), (2 : ℚ)), (20, 22)])[1]?
        = some (clip_name 1, ((20 : ℚ), (22 : ℚ)))
    ∧ clip_name 1 = "clip_" ++ natStr (1 + 1) ++ ".mkv" :=
  export_numbering_from_position _ 1 _ (by decide)

/-! Export error handling, from the `subprocess.run(..., check=True)` call
wrapped in `try/except subprocess.CalledProcessError` in `export_clip`.
The encoder subprocess is modelled by its observable outcome (exit zero, or
a nonzero exit code with captured standard error); raising an exception is
modelled with `Except`. Console markers of the source messages are kept as
their textual part; the decorative emoji bytes are elided. -/

/-- Config default: path of the source video. -/
def video_path : String := "your_video.mkv"

/-- Config default: directory for exported clips. -/
def clip_output_dir : String := "clips"

/-- Config default: output frame rate. -/
def fps : String := "60"

/-- Config default: video encoder identifier. -/
def video_codec : String := "h264_nvenc"

/-- `os.path.join(clip_output_dir, clip_name)`. -/
def output_path (name : String) : String := clip_output_dir ++ "/" ++ name

/-- The outcome of running the external encoder once. -/
inductive ProcOutcome where
  | success
  | failure (code : ℤ) (stderr : String)

/-- The exception raised by `subprocess.run(..., check=True)` on a nonzero
exit: it carries the return code and the captured standard error. -/
structure CalledProcessError where
  returncode : ℤ
  stderr : String

/-- The ffmpeg command line built for one clip. -/
def ffmpeg_command (i : ℕ) (start stop : ℚ) : List String :=
  ["ffmpeg",
   "-ss", toString (clip_start start stop buffer_before buffer_after min_duration),
   "-i", video_path,
   "-t", toString (clip_duration start stop buffer_before buffer_after min_duration),
   "-r", fps,
   "-c:v", video_codec,
   "-preset", "p4",
   "-cq", "21",
   "-c:a", "aac",
   "-b:a", "192k",
   "-y",
   output_path (clip_name i)]

/-- `subprocess.run(command, check=True, ...)`: returns normally on exit
code zero and raises `CalledProcessError` otherwise. -/
def subprocess_run_check (outcome : ProcOutcome) : Except CalledProcessError Unit :=
  match outcome with
  | .success => .ok ()
  | .failure code err => .error ⟨code, err⟩

/-- The try-block of `export_clip`: run the encoder, then print the success
message. The console output is collected as the returned list of lines. -/
def exportClipBody (i : ℕ) (outcome : ProcOutcome) :
    Except CalledProcessError (List String) := do
  subprocess_run_check outcome
  pure ["Exported: " ++ clip_name i]

/-- `export_clip` with its exception handler: a `CalledProcessError` escaping
the try-block is caught, and the failure report (failing command line and
captured stderr) is printed instead; the function always returns normally. -/
def export_clip (i : ℕ) (start stop : ℚ) (outcome : ProcOutcome) : List String :=
  match exportClipBody i outcome with
  | .ok msgs => msgs
  | .error e =>
      ["ERROR exporting " ++ clip_name i ++ ": FFMPEG failed.",
       "    Command: " ++ String.intercalate " " (ffmpeg_command i start stop),
       "    FFMPEG stderr:\n" ++ e.stderr]

/-- The export fan-out over the merged moment list: each submitted clip
produces its own console report from its own outcome. -/
def runExports (moments : List Moment) (outcomes : ℕ → ProcOutcome) : List (List String) :=
  moments.enum.map fun p => export_clip p.1 p.2.1 p.2.2 (outcomes p.1)

/-- Claim C4: a nonzero encoder exit raises inside the try-block, is caught,
and is reported with the failing command line and the captured stderr while
the function returns normally (a plain message list in both cases); the run
still produces one report per submitted clip, whatever the outcomes, so one
failure aborts neither the run nor sibling exports. -/
theorem export_failure_caught_and_reported :
    (∀ (i : ℕ) (start stop : ℚ) (code : ℤ) (err : String),
      exportClipBody i (.failure code err) = .error ⟨code, err⟩
      ∧ export_clip i start stop (.failure code err)
          = ["ERROR exporting " ++ clip_name i ++ ": FFMPEG failed.",
             "    Command: " ++ String.intercalate " " (ffmpeg_command i start stop),
             "    FFMPEG stderr:\n" ++ err])
    ∧ (∀ (i : ℕ) (start stop : ℚ),
        export_clip i start stop .success = ["Exported: " ++ clip_name i])
    ∧ (∀ (moments : List Moment) (outcomes : ℕ → ProcOutcome),
        (runExports moments outcomes).length = moments.length) := by
  refine ⟨fun i s e code err => ⟨rfl, rfl⟩, fun i s e => rfl, fun moments outcomes => ?_⟩
  simp [runExports]

/-! Invariants of the merger (claims C5 and C9), proved by induction on the
sweep form and transported through `merge_eq_spec`. -/

lemma sweep_preserves_wf (threshold : ℚ) :
    ∀ (rest : List Moment) (last : Moment), last.1 ≤ last.2 → (∀ m ∈ rest, m.1 ≤ m.2) →
      ∀ m ∈ mergeSweep threshold last rest, m.1 ≤ m.2 := by
  intro rest
  induction rest with
  | nil =>
      intro last hlast _ m hm
      simp only [mergeSweep, List.mem_singleton] at hm
      exact hm ▸ hlast
  | cons cur rest ih =>
      intro last hlast hrest m hm
      obtain ⟨ls, le⟩ := last
      obtain ⟨cs, ce⟩ := cur
      by_cases h : cs ≤ le + threshold
      · simp only [mergeSweep, if_pos h] at hm
        exact ih (ls, max le ce) (le_trans hlast (le_max_left le ce))
          (fun m2 hm2 => hrest m2 (List.mem_cons_of_mem _ hm2)) m hm
      · simp only [mergeSweep, if_neg h] at hm
        rcases List.mem_cons.1 hm with h1 | h1
        · exact h1 ▸ hlast
        · exact ih (cs, ce) (hrest _ (List.mem_cons_self _ _))
            (fun m2 hm2 => hrest m2 (List.mem_cons_of_mem _ hm2)) m h1

lemma sweep_covers (threshold : ℚ) :
    ∀ (rest : List Moment) (last : Moment), List.Pairwise startLE (last :: rest) →
      ∀ m ∈ last :: rest,
        ∃ m2 ∈ mergeSweep threshold last rest, m2.1 ≤ m.1 ∧ m.2 ≤ m2.2 := by
  intro rest
  induction rest with
  | nil =>
      intro last _ m hm
      simp only [List.mem_singleton] at hm
      exact ⟨last, by simp [mergeSweep], hm ▸ le_refl _, hm ▸ le_refl _⟩
  | cons cur rest ih =>
      intro last hp m hm
      obtain ⟨ls, le⟩ := last
      obtain ⟨cs, ce⟩ := cur
      have hp1 : ∀ b ∈ (cs, ce) :: rest, startLE (ls, le) b := (List.pairwise_cons.1 hp).1
      have hp2 : List.Pairwise startLE ((cs, ce) :: rest) := (List.pairwise_cons.1 hp).2
      by_cases h : cs ≤ le + threshold
      · simp only [mergeSweep, if_pos h]
        have hp3 : List.Pairwise startLE ((ls, max le ce) :: rest) := by
          refine List.pairwise_cons.2 ⟨?_, hp2.of_cons⟩
          intro b hb
          exact hp1 b (List.mem_cons_of_mem _ hb)
        obtain ⟨m2, hm2mem, hm21, hm22⟩ :=
          ih (ls, max le ce) hp3 (ls, max le ce) (List.mem_cons_self _ _)
        rcases List.mem_cons.1 hm with h1 | h1
        · refine ⟨m2, hm2mem, ?_, ?_⟩
          · exact h1 ▸ hm21
          · exact h1 ▸ le_trans (le_max_left le ce) hm22
        rcases List.mem_cons.1 h1 with h2 | h2
        · refine ⟨m2, hm2mem, ?_, ?_⟩
          · exact h2 ▸ le_trans hm21 (hp1 (cs, ce) (List.mem_cons_self _ _))
          · exact h2 ▸ le_trans (le_max_right le ce) hm22
        · exact ih (ls, max le ce) hp3 m (List.mem_cons_of_mem _ h2)
      · simp only [mergeSweep, if_neg h]
        rcases List.mem_cons.1 hm with h1 | h1
        · exact ⟨(ls, le), List.mem_cons_self _ _, h1 ▸ le_refl _, h1 ▸ le_refl _⟩
        · obtain ⟨m2, hm2mem, hm21, hm22⟩ := ih (cs, ce) hp2 m h1
          exact ⟨m2, List.mem_cons_of_mem _ hm2mem, hm21, hm22⟩

/-- Claim C5: when every input moment has start ≤ end, every merged moment
has start ≤ end, and every input moment is contained in some merged moment
whose start is at most the input start and whose end is at least the input
end — merging never reduces coverage. -/
theorem merger_never_reduces_coverage (moments : List Moment) (threshold : ℚ)
    (h : ∀ m ∈ moments, m.1 ≤ m.2) :
    (∀ m ∈ merge_overlapping_moments moments threshold, m.1 ≤ m.2)
    ∧ ∀ m ∈ moments, ∃ m2 ∈ merge_overlapping_moments moments threshold,
        m2.1 ≤ m.1 ∧ m.2 ≤ m2.2 := by
  rw [merge_eq_spec]
  unfold mergeMomentsSpec
  cases hs : List.insertionSort startLE moments with
  | nil =>
      constructor
      · intro m hm; cases hm
      · intro m hm
        have hmem : m ∈ List.insertionSort startLE moments :=
          (List.mem_insertionSort startLE).2 hm
        rw [hs] at hmem
        cases hmem
  | cons first rest =>
      have hsorted : List.Pairwise startLE (first :: rest) := by
        have hsort := List.sorted_insertionSort startLE moments
        rw [hs] at hsort
        exact hsort
      have hmem : ∀ m, m ∈ first :: rest ↔ m ∈ moments := by
        intro m
        rw [← hs]
        exact List.mem_insertionSort startLE
      constructor
      · exact sweep_preserves_wf threshold rest first
          (h first ((hmem first).1 (List.mem_cons_self _ _)))
          (fun m hm => h m ((hmem m).1 (List.mem_cons_of_mem _ hm)))
      · intro m hm
        exact sweep_covers threshold rest first hsorted m ((hmem m).2 hm)

/-- Witness for claim C5 on the three-moment example list. -/
theorem merger_never_reduces_coverage_witness :
    (∀ m ∈ merge_overlapping_moments [((0 : ℚ), (2 : ℚ)), (3, 5), (20, 22)] 10, m.1 ≤ m.2)
    ∧ ∀ m ∈ ([((0 : ℚ), (2 : ℚ)), (3, 5), (20, 22)] : List Moment),
        ∃ m2 ∈ merge_overlapping_moments [((0 : ℚ), (2 : ℚ)), (3, 5), (20, 22)] 10,
          m2.1 ≤ m.1 ∧ m.2 ≤ m2.2 :=
  merger_never_reduces_coverage _ _ (by decide)

lemma sweep_head (threshold : ℚ) :
    ∀ (rest : List Moment) (last : Moment),
      ∃ e tail, mergeSweep threshold last rest = (last.1, e) :: tail ∧ last.2 ≤ e := by
  intro rest
  induction rest with
  | nil =>
      intro last
      exact ⟨last.2, [], by simp [mergeSweep], le_refl _⟩
  | cons cur rest ih =>
      intro last
      obtain ⟨ls, le⟩ := last
      obtain ⟨cs, ce⟩ := cur
      by_cases h : cs ≤ le + threshold
      · obtain ⟨e, tail, heq, hle⟩ := ih (ls, max le ce)
        refine ⟨e, tail, ?_, le_trans (le_max_left le ce) hle⟩
        simp only [mergeSweep, if_pos h]
        exact heq
      · refine ⟨le, mergeSweep threshold (cs, ce) rest, ?_, le_refl _⟩
        simp only [mergeSweep, if_neg h]

lemma sweep_gap (threshold : ℚ) :
    ∀ (rest : List Moment) (last : Moment),
      List.Chain' (fun a b : Moment => a.2 + threshold < b.1)
        (mergeSweep threshold last rest) := by
  intro rest
  induction rest with
  | nil => intro last; simp [mergeSweep]
  | cons cur rest ih =>
      intro last
      obtain ⟨ls, le⟩ := last
      obtain ⟨cs, ce⟩ := cur
      by_cases h : cs ≤ le + threshold
      · simp only [mergeSweep, if_pos h]
        exact ih (ls, max le ce)
      · simp only [mergeSweep, if_neg h]
        obtain ⟨e, tail, heq, _⟩ := sweep_head threshold rest (cs, ce)
        rw [heq]
        refine List.chain'_cons.2 ⟨not_le.1 h, ?_⟩
        rw [← heq]
        exact ih (cs, ce)

lemma sweep_start_lb (threshold : ℚ) :
    ∀ (rest : List Moment) (last : Moment), List.Pairwise startLE (last :: rest) →
      ∀ m ∈ mergeSweep threshold last rest, last.1 ≤ m.1 := by
  intro rest
  induction rest with
  | nil =>
      intro last _ m hm
      simp only [mergeSweep, List.mem_singleton] at hm
      exact hm ▸ le_refl _
  | cons cur rest ih =>
      intro last hp m hm
      obtain ⟨ls, le⟩ := last
      obtain ⟨cs, ce⟩ := cur
      have hp1 : ∀ b ∈ (cs, ce) :: rest, startLE (ls, le) b := (List.pairwise_cons.1 hp).1
      have hp2 : List.Pairwise startLE ((cs, ce) :: rest) := (List.pairwise_cons.1 hp).2
      by_cases h : cs ≤ le + threshold
      · simp only [mergeSweep, if_pos h] at hm
        have hp3 : List.Pairwise startLE ((ls, max le ce) :: rest) :=
          List.pairwise_cons.2
            ⟨fun b hb => hp1 b (List.mem_cons_of_mem _ hb), hp2.of_cons⟩
        exact ih (ls, max le ce) hp3 m hm
      · simp only [mergeSweep, if_neg h] at hm
        rcases List.mem_cons.1 hm with h1 | h1
        · exact h1 ▸ le_refl _
        · exact le_trans (hp1 (cs, ce) (List.mem_cons_self _ _)) (ih (cs, ce) hp2 m h1)

lemma sweep_pairwise (threshold : ℚ) :
    ∀ (rest : List Moment) (last : Moment), List.Pairwise startLE (last :: rest) →
      List.Pairwise startLE (mergeSweep threshold last rest) := by
  intro rest
  induction rest with
  | nil => intro last _; simp [mergeSweep]
  | cons cur rest ih =>
      intro last hp
      obtain ⟨ls, le⟩ := last
      obtain ⟨cs, ce⟩ := cur
      have hp1 : ∀ b ∈ (cs, ce) :: rest, startLE (ls, le) b := (List.pairwise_cons.1 hp).1
      have hp2 : List.Pairwise startLE ((cs, ce) :: rest) := (List.pairwise_cons.1 hp).2
      by_cases h : cs ≤ le + threshold
      · simp only [mergeSweep, if_pos h]
        have hp3 : List.Pairwise startLE ((ls, max le ce) :: rest) :=
          List.pairwise_cons.2
            ⟨fun b hb => hp1 b (List.mem_cons_of_mem _ hb), hp2.of_cons⟩
        exact ih (ls, max le ce) hp3
      · simp only [mergeSweep, if_neg h]
        refine List.pairwise_cons.2 ⟨?_, ih (cs, ce) hp2⟩
        intro b hb
        exact le_trans (hp1 (cs, ce) (List.mem_cons_self _ _))
          (sweep_start_lb threshold rest (cs, ce) hp2 b hb)

lemma sweep_no_merge (threshold : ℚ) :
    ∀ (rest : List Moment) (last : Moment),
      List.Chain' (fun a b : Moment => a.2 + threshold < b.1) (last :: rest) →
      mergeSweep threshold last rest = last :: rest := by
  intro rest
  induction rest with
  | nil => intro last _; simp [mergeSweep]
  | cons cur rest ih =>
      intro last hchain
      obtain ⟨ls, le⟩ := last
      obtain ⟨cs, ce⟩ := cur
      have hgap : le + threshold < cs := (List.chain'_cons.1 hchain).1
      have h : ¬ cs ≤ le + threshold := not_le.2 hgap
      simp only [mergeSweep, if_neg h]
      rw [ih (cs, ce) (List.chain'_cons.1 hchain).2]

/-- Claim C9: merging is idempotent — applying the merger to its own output
with the same threshold returns the output unchanged; equivalently, the
output is sorted by start time and each consecutive pair of output moments
is separated by more than the threshold (next start > previous end +
threshold). Proved for every threshold, in particular every threshold ≥ 0. -/
theorem merger_idempotent (moments : List Moment) (threshold : ℚ) :
    merge_overlapping_moments (merge_overlapping_moments moments threshold) threshold
      = merge_overlapping_moments moments threshold
    ∧ List.Pairwise startLE (merge_overlapping_moments moments threshold)
    ∧ List.Chain' (fun a b : Moment => a.2 + threshold < b.1)
        (merge_overlapping_moments moments threshold) := by
  have hpair : List.Pairwise startLE (merge_overlapping_moments moments threshold) := by
    rw [merge_eq_spec]
    unfold mergeMomentsSpec
    cases hs : List.insertionSort startLE moments with
    | nil => exact List.Pairwise.nil
    | cons first rest =>
        have hsort := List.sorted_insertionSort startLE moments
        rw [hs] at hsort
        exact sweep_pairwise threshold rest first hsort
  have hchain : List.Chain' (fun a b : Moment => a.2 + threshold < b.1)
      (merge_overlapping_moments moments threshold) := by
    rw [merge_eq_spec]
    unfold mergeMomentsSpec
    cases hs : List.insertionSort startLE moments with
    | nil => exact List.chain'_nil
    | cons first rest => exact sweep_gap threshold rest first
  refine ⟨?_, hpair, hchain⟩
  cases hout : merge_overlapping_moments moments threshold with
  | nil => rfl
  | cons f r =>
      rw [hout] at hpair hchain
      rw [merge_eq_spec]
      unfold mergeMomentsSpec
      have hsorted_out : List.insertionSort startLE (f :: r) = f :: r :=
        List.Sorted.insertionSort_eq hpair
      rw [hsorted_out]
      exact sweep_no_merge threshold r f hchain
